import Mathlib

/-!
Shallow embedding of `src/src/lib.rs` (a singly-linked list with in-place
structural mutation) and proofs of its specification's claims.

Modelling conventions:
* `Node<T>` is the inductive `Node T` with constructors `Empty`, `Tail`,
  `Parent`, mirroring the Rust enum.
* Rust methods that mutate `&mut self` become state-passing functions
  returning the new node; a method that also returns a value returns a pair.
* A Rust `panic!` (in `Node::value` on `Empty`) and the `unwrap()` calls in
  `Node::to_tail` are modelled by an outer `Option` layer: `none` at that
  layer means the operation aborted by panicking.  The legitimate
  "empty container" signal of `pop`/`pop_front` (Rust's returned
  `Option<T>`) is the inner `Option` of the result pair.
* The `while let` loop of `LinkedList::to_vec` is modelled with explicit
  fuel; `none` on fuel exhaustion would mean the loop ran longer than the
  list's size allows, which is proved impossible for well-formed lists.
-/

set_option autoImplicit false

namespace LinkedRs

/-- Embeds `enum Node<T> { Empty, Tail { value }, Parent { value, next } }`. -/
inductive Node (T : Type) where
  | Empty : Node T
  | Tail (value : T) : Node T
  | Parent (value : T) (next : Node T) : Node T
  deriving DecidableEq

namespace Node

variable {T : Type}

/-- Embeds `Node::is_tail`. -/
def is_tail : Node T → Bool
  | .Tail _ => true
  | _ => false

/-- Embeds `Node::is_empty`. -/
def is_empty : Node T → Bool
  | .Empty => true
  | _ => false

/-- Embeds `Node::value`; `none` models the `panic!("expected value node")`
on the `Empty` variant. -/
def value : Node T → Option T
  | .Empty => none
  | .Tail v => some v
  | .Parent v _ => some v

/-- Embeds `Node::to_parent`: the old content is swapped out, its value
extracted (possibly panicking), and the node becomes a `Parent` whose `next`
is a fresh `Tail` holding `child_value`. -/
def to_parent (n : Node T) (child_value : T) : Option (Node T) :=
  (n.value).map (fun extracted_value =>
    Node.Parent extracted_value (Node.Tail child_value))

/-- Embeds `Node::to_empty`: swap an `Empty` placeholder in and extract the
old content's value (possibly panicking); returns the value and new state. -/
def to_empty (n : Node T) : Option (T × Node T) :=
  (n.value).map (fun v => (v, Node.Empty))

/-- Embeds `Node::push`. -/
def push : Node T → T → Option (Node T)
  | .Empty, val => some (Node.Tail val)
  | .Tail v, val => (Node.Tail v).to_parent val
  | .Parent v next, val => (next.push val).map (fun m => Node.Parent v m)

/-- Embeds `Node::push_front`: on `Empty` delegate to `push`; otherwise
swap the whole current content into the `next` slot of a new `Parent`. -/
def push_front (n : Node T) (val : T) : Option (Node T) :=
  if n.is_empty then n.push val
  else some (Node.Parent val n)

mutual

/-- Embeds `Node::pop`.  The result's outer `Option` models a panic, the
inner one the "empty" signal returned to the caller; the second component is
the node's state after the call. -/
def pop : Node T → Option (Option T × Node T)
  | .Empty => some (none, Node.Empty)
  | .Tail v => ((Node.Tail v).to_empty).map (fun p => (some p.1, p.2))
  | .Parent v next =>
      if next.is_tail then
        ((Node.Parent v next).to_tail).map (fun p => (some p.1, p.2))
      else
        (next.pop).map (fun p => (p.1, Node.Parent v p.2))
termination_by n => 2 * sizeOf n + 1

/-- Embeds `Node::to_tail`: `self.next().unwrap()` (panics unless the node
is a `Parent`), then `next.pop().unwrap()` (panics if that pop signalled
empty), then the node itself collapses to `Tail` around its own value. -/
def to_tail : Node T → Option (T × Node T)
  | .Parent v next =>
      (next.pop).bind (fun p =>
        p.1.bind (fun popped_val =>
          ((Node.Parent v next).value).map (fun value =>
            (popped_val, Node.Tail value))))
  | _ => none
termination_by n => 2 * sizeOf n

end

/-- Embeds `Node::pop_front`: on `Parent`, the successor chain is swapped up
to replace the node in place and the old root's value is extracted from the
detached `Parent { value, next: Empty }` shell. -/
def pop_front : Node T → Option (Option T × Node T)
  | .Empty => some (none, Node.Empty)
  | .Tail v => ((Node.Tail v).to_empty).map (fun p => (some p.1, p.2))
  | .Parent v next =>
      ((Node.Parent v Node.Empty).value).map (fun w => (some w, next))

/-- Embeds `Node::size`. -/
def size : Node T → Nat
  | .Empty => 0
  | .Tail _ => 1
  | .Parent _ next => 1 + next.size

/-- Abstraction function: the logical front-to-back sequence a node chain
represents.  Used to specify the operations. -/
def toList : Node T → List T
  | .Empty => []
  | .Tail v => [v]
  | .Parent v next => v :: next.toList

end Node

/-- Embeds `struct LinkedList<T> { node: Node<T> }`. -/
structure LinkedList (T : Type) where
  node : Node T
  deriving DecidableEq

namespace LinkedList

variable {T : Type}

/-- Embeds `LinkedList::new`. -/
def new : LinkedList T := ⟨Node.Empty⟩

/-- Embeds `LinkedList::push` (delegates to the root node). -/
def push (l : LinkedList T) (val : T) : Option (LinkedList T) :=
  (l.node.push val).map LinkedList.mk

/-- Embeds `LinkedList::push_front`. -/
def push_front (l : LinkedList T) (val : T) : Option (LinkedList T) :=
  (l.node.push_front val).map LinkedList.mk

/-- Embeds `LinkedList::pop`: the returned `Option<T>` paired with the
list's state after the call. -/
def pop (l : LinkedList T) : Option (Option T × LinkedList T) :=
  (l.node.pop).map (fun p => (p.1, ⟨p.2⟩))

/-- Embeds `LinkedList::pop_front`. -/
def pop_front (l : LinkedList T) : Option (Option T × LinkedList T) :=
  (l.node.pop_front).map (fun p => (p.1, ⟨p.2⟩))

/-- Embeds `LinkedList::size`. -/
def size (l : LinkedList T) : Nat :=
  l.node.size

/-- Helper for `LinkedList::from`: push each item of the input in iteration
order (`it.into_iter().for_each(|v| list.push(v))`). -/
def pushAll : Node T → List T → Option (Node T)
  | n, [] => some n
  | n, v :: vs => (n.push v).bind (fun m => pushAll m vs)

/-- Embeds `LinkedList::from` (named `fromList`; `from` is a Lean keyword). -/
def fromList (s : List T) : Option (LinkedList T) :=
  (pushAll Node.Empty s).map LinkedList.mk

/-- The `while let Some(value) = self.node.pop()` loop of
`LinkedList::to_vec`, with explicit fuel; each popped value is appended to
the accumulating vector, exactly as `vec.push(value)` does. -/
def popLoop : Nat → Node T → List T → Option (List T)
  | 0, _, _ => none
  | fuel + 1, n, vec =>
      match n.pop with
      | none => none
      | some (none, _) => some vec
      | some (some value, n2) => popLoop fuel n2 (vec ++ [value])

/-- Embeds `LinkedList::to_vec`: run the pop loop, then `vec.reverse()`.
The fuel `size + 1` covers one pop per element plus the final empty pop. -/
def to_vec (l : LinkedList T) : Option (List T) :=
  (popLoop (l.node.size + 1) l.node []).map List.reverse

end LinkedList

/-- The spec's structural invariants I1–I3 at every node of the chain: a
`Parent`'s successor is never `Empty` (which forces size 0 ↔ `Empty`,
size 1 ↔ `Tail`, size ≥ 2 ↔ `Parent`). -/
def Node.wf {T : Type} : Node T → Bool
  | .Empty => true
  | .Tail _ => true
  | .Parent _ next => !next.is_empty && next.wf

/-- One public mutating call on the container. -/
inductive Op (T : Type) where
  | push (val : T)
  | push_front (val : T)
  | pop
  | pop_front

/-- Run a sequence of public calls against a node chain, threading the
state; returns the final chain together with the number of pushes and the
number of successful (value-returning) pops.  `none` means some call
panicked. -/
def Node.run {T : Type} : Node T → List (Op T) → Option (Node T × Nat × Nat)
  | n, [] => some (n, 0, 0)
  | n, Op.push v :: ops =>
      (n.push v).bind (fun m =>
        (m.run ops).map (fun r => (r.1, r.2.1 + 1, r.2.2)))
  | n, Op.push_front v :: ops =>
      (n.push_front v).bind (fun m =>
        (m.run ops).map (fun r => (r.1, r.2.1 + 1, r.2.2)))
  | n, Op.pop :: ops =>
      (n.pop).bind (fun p =>
        (p.2.run ops).map (fun r =>
          (r.1, r.2.1, r.2.2 + (if p.1.isSome then 1 else 0))))
  | n, Op.pop_front :: ops =>
      (n.pop_front).bind (fun p =>
        (p.2.run ops).map (fun r =>
          (r.1, r.2.1, r.2.2 + (if p.1.isSome then 1 else 0))))

/-- A chain state is reachable when some sequence of public calls starting
from the empty list produces it (this covers `LinkedList::from`, which is a
sequence of pushes, and `size`, which does not mutate). -/
def Reachable {T : Type} (n : Node T) : Prop :=
  ∃ (ops : List (Op T)) (pushes pops : Nat),
    Node.run Node.Empty ops = some (n, pushes, pops)

/-- Modelled from the spec: `toSequence` "repeatedly removes the front
element until empty, and returns a contiguous sequence of the removed
elements in removal order (front-to-back)".  Same fuel discipline as
`LinkedList.popLoop`. -/
def LinkedList.frontLoop {T : Type} : Nat → Node T → List T → Option (List T)
  | 0, _, _ => none
  | fuel + 1, n, vec =>
      match n.pop_front with
      | none => none
      | some (none, _) => some vec
      | some (some value, n2) => frontLoop fuel n2 (vec ++ [value])

/-- Modelled from the spec: the front-removal export `toSequence`, the
reference behaviour that `LinkedList.to_vec` is claimed to refine. -/
def LinkedList.toSequence {T : Type} (l : LinkedList T) : Option (List T) :=
  LinkedList.frontLoop (l.node.size + 1) l.node []

namespace Node

variable {T : Type}

@[simp] theorem toList_empty : (Node.Empty : Node T).toList = [] := rfl

@[simp] theorem toList_tail (v : T) : (Node.Tail v).toList = [v] := rfl

@[simp] theorem toList_parent (v : T) (next : Node T) :
    (Node.Parent v next).toList = v :: next.toList := rfl

@[simp] theorem size_eq_length (n : Node T) : n.size = n.toList.length := by
  induction n <;> simp [size, Nat.add_comm, *]

theorem toList_eq_nil_iff {n : Node T} : n.toList = [] ↔ n = Node.Empty := by
  cases n <;> simp

theorem is_empty_iff {n : Node T} : n.is_empty = true ↔ n = Node.Empty := by
  cases n <;> simp [is_empty]

theorem is_empty_eq_false {n : Node T} (h : n.toList ≠ []) :
    n.is_empty = false := by
  cases n <;> simp_all [is_empty]

theorem is_tail_iff {n : Node T} : n.is_tail = true ↔ ∃ v, n = Node.Tail v := by
  cases n <;> simp [is_tail]

theorem push_spec (n : Node T) (val : T) :
    ∃ m, n.push val = some m ∧ m.toList = n.toList ++ [val] := by
  induction n with
  | Empty => exact ⟨Node.Tail val, rfl, rfl⟩
  | Tail v => exact ⟨Node.Parent v (Node.Tail val), rfl, rfl⟩
  | Parent v next ih =>
      obtain ⟨m, hm, hl⟩ := ih
      exact ⟨Node.Parent v m, by simp [push, hm], by simp [hl]⟩

theorem push_wf {n m : Node T} {val : T} (hw : n.wf = true)
    (h : n.push val = some m) : m.wf = true := by
  induction n generalizing m with
  | Empty => simp [push] at h; subst h; rfl
  | Tail v => simp [push, to_parent, value] at h; subst h; rfl
  | Parent v next ih =>
      simp [wf] at hw
      obtain ⟨m2, hm2, hl2⟩ := push_spec next val
      simp [push, hm2] at h
      subst h
      have hne : m2.is_empty = false := is_empty_eq_false (by simp [hl2])
      simp [wf, hne, ih hw.2 hm2]

theorem push_front_spec (n : Node T) (val : T) :
    ∃ m, n.push_front val = some m ∧ m.toList = val :: n.toList := by
  cases n with
  | Empty => exact ⟨Node.Tail val, rfl, rfl⟩
  | Tail v => exact ⟨Node.Parent val (Node.Tail v), rfl, rfl⟩
  | Parent v next => exact ⟨Node.Parent val (Node.Parent v next), rfl, rfl⟩

theorem push_front_wf {n m : Node T} {val : T} (hw : n.wf = true)
    (h : n.push_front val = some m) : m.wf = true := by
  cases n with
  | Empty => simp [push_front, is_empty, push] at h; subst h; rfl
  | Tail v => simp [push_front, is_empty] at h; subst h; simp [wf, is_empty]
  | Parent v next =>
      simp [push_front, is_empty] at h
      subst h
      simp [wf, is_empty] at hw ⊢
      exact hw

theorem pop_empty : (Node.Empty : Node T).pop = some (none, Node.Empty) := by
  simp [pop]

theorem pop_tail (v : T) : (Node.Tail v).pop = some (some v, Node.Empty) := by
  simp [pop, to_empty, value]

theorem pop_parent_tail (v w : T) :
    (Node.Parent v (Node.Tail w)).pop = some (some w, Node.Tail v) := by
  rw [pop]
  simp [is_tail, to_tail, pop_tail, value]

theorem pop_parent_of_not_tail {next : Node T} (h : next.is_tail = false)
    (v : T) :
    (Node.Parent v next).pop =
      (next.pop).map (fun p => (p.1, Node.Parent v p.2)) := by
  rw [pop]
  simp [h]

theorem pop_total (n : Node T) : ∃ r m, n.pop = some (r, m) := by
  induction n with
  | Empty => exact ⟨none, Node.Empty, pop_empty⟩
  | Tail v => exact ⟨some v, Node.Empty, pop_tail v⟩
  | Parent v next ih =>
      cases hb : next.is_tail with
      | true =>
          obtain ⟨w, rfl⟩ := is_tail_iff.mp hb
          exact ⟨some w, Node.Tail v, pop_parent_tail v w⟩
      | false =>
          obtain ⟨r, m, hm⟩ := ih
          exact ⟨r, Node.Parent v m, by
            rw [pop_parent_of_not_tail hb, hm]; rfl⟩

theorem pop_spec {n : Node T} (hw : n.wf = true) :
    ∃ r m, n.pop = some (r, m) ∧ m.wf = true ∧
      r = n.toList.getLast? ∧ m.toList = n.toList.dropLast := by
  induction n with
  | Empty => exact ⟨none, Node.Empty, pop_empty, rfl, rfl, rfl⟩
  | Tail v => exact ⟨some v, Node.Empty, pop_tail v, rfl, rfl, rfl⟩
  | Parent v next ih =>
      cases next with
      | Empty => simp [wf, is_empty] at hw
      | Tail w =>
          refine ⟨some w, Node.Tail v, pop_parent_tail v w, rfl, ?_, ?_⟩ <;>
            simp
      | Parent w next2 =>
          have hw2 : (Node.Parent w next2).wf = true := by
            simp [wf] at hw ⊢
            exact hw.2
          obtain ⟨r, m, hpop, hwm, hr, hl⟩ := ih hw2
          have hne2 : next2.toList ≠ [] := by
            intro hnil
            rw [toList_eq_nil_iff.mp hnil] at hw2
            simp [wf, is_empty] at hw2
          refine ⟨r, Node.Parent v m,
            by
              rw [pop_parent_of_not_tail
                (show (Node.Parent w next2).is_tail = false from rfl) v, hpop]
              rfl, ?_, ?_, ?_⟩
          · have hmne : m.is_empty = false := by
              refine is_empty_eq_false ?_
              rw [hl]
              simp [List.dropLast_cons_of_ne_nil hne2]
            simp [wf, hmne, hwm]
          · rw [hr]
            simp [List.getLast?_cons_cons]
          · simp only [toList_parent, hl]
            rw [show (v :: w :: next2.toList).dropLast
                  = v :: (w :: next2.toList).dropLast from rfl]

theorem pop_front_spec (n : Node T) :
    ∃ r m, n.pop_front = some (r, m) ∧ r = n.toList.head? ∧
      m.toList = n.toList.tail := by
  cases n with
  | Empty => exact ⟨none, Node.Empty, rfl, rfl, rfl⟩
  | Tail v => exact ⟨some v, Node.Empty, rfl, rfl, rfl⟩
  | Parent v next => exact ⟨some v, next, rfl, rfl, rfl⟩

theorem pop_front_wf {n m : Node T} {r : Option T} (hw : n.wf = true)
    (h : n.pop_front = some (r, m)) : m.wf = true := by
  cases n with
  | Empty => simp [pop_front] at h; exact h.2 ▸ rfl
  | Tail v => simp [pop_front, to_empty, value] at h; exact h.2 ▸ rfl
  | Parent v next =>
      simp [pop_front, value] at h
      simp [wf] at hw
      exact h.2 ▸ hw.2

theorem pop_count {n : Node T} (hw : n.wf = true) :
    ∃ r m, n.pop = some (r, m) ∧ m.wf = true ∧
      m.size + (if r.isSome then 1 else 0) = n.size := by
  obtain ⟨r, m, hpop, hwm, hr, hl⟩ := pop_spec hw
  refine ⟨r, m, hpop, hwm, ?_⟩
  simp only [size_eq_length, hl]
  rcases hnil : n.toList with _ | ⟨a, l⟩
  · simp [hr, hnil]
  · have hne : n.toList ≠ [] := by simp [hnil]
    have hs : r.isSome = true := by
      rw [hr, List.getLast?_eq_getLast _ hne]
      rfl
    rw [if_pos hs]
    simp

theorem pop_front_count {n : Node T} (hw : n.wf = true) :
    ∃ r m, n.pop_front = some (r, m) ∧ m.wf = true ∧
      m.size + (if r.isSome then 1 else 0) = n.size := by
  obtain ⟨r, m, hpop, hr, hl⟩ := pop_front_spec n
  refine ⟨r, m, hpop, pop_front_wf hw hpop, ?_⟩
  rcases hnil : n.toList with _ | ⟨a, l⟩
  · simp_all
  · have : r.isSome = true := by rw [hr, hnil]; rfl
    simp only [this, if_pos rfl, size_eq_length, hl, hnil]
    simp

theorem run_spec (ops : List (Op T)) (n : Node T) (hw : n.wf = true) :
    ∃ f pushes pops, n.run ops = some (f, pushes, pops) ∧ f.wf = true ∧
      f.size + pops = n.size + pushes ∧ pops ≤ n.size + pushes := by
  induction ops generalizing n with
  | nil => exact ⟨n, 0, 0, rfl, hw, by simp, by simp⟩
  | cons op ops ih =>
      cases op with
      | push v =>
          obtain ⟨m, hm, hl⟩ := push_spec n v
          have hsz : m.size = n.size + 1 := by simp [hl]
          obtain ⟨f, p, s, hrun, hwf, he, hle⟩ := ih m (push_wf hw hm)
          refine ⟨f, p + 1, s, ?_, hwf, by omega, by omega⟩
          simp [run, hm, hrun]
      | push_front v =>
          obtain ⟨m, hm, hl⟩ := push_front_spec n v
          have hsz : m.size = n.size + 1 := by simp [hl]
          obtain ⟨f, p, s, hrun, hwf, he, hle⟩ := ih m (push_front_wf hw hm)
          refine ⟨f, p + 1, s, ?_, hwf, by omega, by omega⟩
          simp [run, hm, hrun]
      | pop =>
          obtain ⟨r, m, hpop, hwm, hc⟩ := pop_count hw
          obtain ⟨f, p, s, hrun, hwf, he, hle⟩ := ih m hwm
          refine ⟨f, p, s + (if r.isSome then 1 else 0), ?_, hwf,
            by omega, by omega⟩
          simp [run, hpop, hrun]
      | pop_front =>
          obtain ⟨r, m, hpop, hwm, hc⟩ := pop_front_count hw
          obtain ⟨f, p, s, hrun, hwf, he, hle⟩ := ih m hwm
          refine ⟨f, p, s + (if r.isSome then 1 else 0), ?_, hwf,
            by omega, by omega⟩
          simp [run, hpop, hrun]

theorem size_pos {n : Node T} (h : n ≠ Node.Empty) : 1 ≤ n.size := by
  cases n with
  | Empty => exact absurd rfl h
  | Tail v => simp
  | Parent v next => simp [Nat.succ_le_succ]

theorem wf_shape {n : Node T} (hw : n.wf = true) :
    (n.size = 0 ↔ n = Node.Empty) ∧
    (n.size = 1 ↔ ∃ v, n = Node.Tail v) ∧
    (2 ≤ n.size ↔ ∃ v next, n = Node.Parent v next ∧ next ≠ Node.Empty) := by
  cases n with
  | Empty => simp [size]
  | Tail v => simp [size]
  | Parent v next =>
      have hne : next ≠ Node.Empty := by
        intro hnil
        rw [hnil] at hw
        simp [wf, is_empty] at hw
      have hpos : 1 ≤ next.size := size_pos hne
      refine ⟨?_, ?_, ?_⟩
      · simp [size]
      · constructor
        · intro hs
          simp only [size] at hs
          omega
        · rintro ⟨w, hw2⟩
          exact absurd hw2 (by simp)
      · constructor
        · intro _
          exact ⟨v, next, rfl, hne⟩
        · intro _
          simp only [size]
          omega

theorem run_wf {ops : List (Op T)} {n f : Node T} {pushes pops : Nat}
    (hw : n.wf = true) (h : n.run ops = some (f, pushes, pops)) :
    f.wf = true := by
  obtain ⟨f2, p2, s2, hrun2, hwf, -, -⟩ := run_spec ops n hw
  rw [h] at hrun2
  cases hrun2
  exact hwf

end Node

theorem Reachable.wf {T : Type} {n : Node T} (h : Reachable n) :
    n.wf = true := by
  obtain ⟨ops, p, s, hrun⟩ := h
  obtain ⟨f, p2, s2, hrun2, hwf, -, -⟩ := Node.run_spec ops Node.Empty rfl
  rw [hrun] at hrun2
  cases hrun2
  exact hwf

namespace LinkedList

variable {T : Type}

theorem pushAll_spec (s : List T) (n : Node T) :
    ∃ m, pushAll n s = some m ∧ m.toList = n.toList ++ s ∧
      (n.wf = true → m.wf = true) := by
  induction s generalizing n with
  | nil => exact ⟨n, rfl, by simp, fun h => h⟩
  | cons v vs ih =>
      obtain ⟨m, hm, hl⟩ := Node.push_spec n v
      obtain ⟨f, hf, hfl, hfw⟩ := ih m
      refine ⟨f, by simp [pushAll, hm, hf], by simp [hfl, hl], ?_⟩
      exact fun h => hfw (Node.push_wf h hm)

theorem fromList_spec (s : List T) :
    ∃ l, fromList s = some l ∧ l.node.toList = s ∧ l.node.wf = true := by
  obtain ⟨m, hm, hl, hw⟩ := pushAll_spec s Node.Empty
  exact ⟨⟨m⟩, by simp [fromList, hm], by simpa using hl, hw rfl⟩

theorem popLoop_spec (fuel : Nat) (n : Node T) (vec : List T)
    (hw : n.wf = true) (hfuel : n.toList.length < fuel) :
    popLoop fuel n vec = some (vec ++ n.toList.reverse) := by
  induction fuel generalizing n vec with
  | zero => omega
  | succ k ih =>
      obtain ⟨r, m, hpop, hwm, hr, hl⟩ := Node.pop_spec hw
      rcases hnil : n.toList with _ | ⟨a, l⟩
      · have : r = none := by rw [hr, hnil]; rfl
        subst this
        simp only [popLoop, hpop, hnil]
        simp
      · have hne : n.toList ≠ [] := by simp [hnil]
        obtain ⟨last, hlast⟩ : ∃ w, r = some w := by
          rw [hr, List.getLast?_eq_getLast _ hne]
          exact ⟨_, rfl⟩
        subst hlast
        have hdecomp : n.toList.dropLast ++ [last] = n.toList :=
          List.dropLast_append_getLast? last (by rw [← hr]; rfl)
        have hlen : m.toList.length < k := by
          rw [hl, List.length_dropLast]
          rw [hnil] at hfuel ⊢
          simp at hfuel ⊢
          omega
        simp only [popLoop, hpop]
        rw [ih m (vec ++ [last]) hwm hlen, hl]
        have hrev : (a :: l).reverse = last :: n.toList.dropLast.reverse := by
          rw [← hnil]
          conv_lhs => rw [← hdecomp]
          simp
        rw [hrev]
        simp

theorem to_vec_spec (l : LinkedList T) (hw : l.node.wf = true) :
    l.to_vec = some l.node.toList := by
  rw [to_vec, popLoop_spec (l.node.size + 1) l.node [] hw (by simp)]
  simp

theorem frontLoop_spec (fuel : Nat) (n : Node T) (vec : List T)
    (hfuel : n.toList.length < fuel) :
    frontLoop fuel n vec = some (vec ++ n.toList) := by
  induction fuel generalizing n vec with
  | zero => omega
  | succ k ih =>
      obtain ⟨r, m, hpop, hr, hl⟩ := Node.pop_front_spec n
      rcases hnil : n.toList with _ | ⟨a, l⟩
      · have : r = none := by rw [hr, hnil]; rfl
        subst this
        simp only [frontLoop, hpop, hnil]
        simp
      · have : r = some a := by rw [hr, hnil]; rfl
        subst this
        have hlen : m.toList.length < k := by
          rw [hl, hnil]
          rw [hnil] at hfuel
          simp at hfuel ⊢
          omega
        simp only [frontLoop, hpop]
        rw [ih m (vec ++ [a]) hlen, hl, hnil]
        simp

theorem toSequence_spec (l : LinkedList T) :
    l.toSequence = some l.node.toList := by
  rw [toSequence, frontLoop_spec (l.node.size + 1) l.node [] (by simp)]
  simp

end LinkedList

/-- C1: round-trip — for every finite input sequence `s`, building a list
with `LinkedList::from` and exporting it with `to_vec` returns `s` itself. -/
theorem claim_C1_round_trip (T : Type) (s : List T) :
    (LinkedList.fromList s).bind LinkedList.to_vec = some s := by
  obtain ⟨l, hl, hlist, hw⟩ := LinkedList.fromList_spec s
  rw [hl]
  simp [LinkedList.to_vec_spec l hw, hlist]

/-- C2: order laws — `push` appends at the logical end and `push_front`
prepends, so the represented sequence becomes `old ++ [v]` respectively
`v :: old`; in particular `to_vec (from [1,2] |>.push 3) = [1,2,3]` and
`to_vec (from [1,2] |>.push_front 3) = [3,1,2]`. -/
theorem claim_C2_order_laws :
    (∀ (T : Type) (l : LinkedList T) (v : T),
      (l.push v).map (fun m => m.node.toList) =
        some (l.node.toList ++ [v])) ∧
    (∀ (T : Type) (l : LinkedList T) (v : T),
      (l.push_front v).map (fun m => m.node.toList) =
        some (v :: l.node.toList)) ∧
    (LinkedList.fromList [1, 2]).bind
        (fun l => (l.push 3).bind LinkedList.to_vec) = some [1, 2, 3] ∧
    (LinkedList.fromList [1, 2]).bind
        (fun l => (l.push_front 3).bind LinkedList.to_vec) = some [3, 1, 2] := by
  refine ⟨?_, ?_, ?_, ?_⟩
  · intro T l v
    obtain ⟨m, hm, hml⟩ := Node.push_spec l.node v
    simp [LinkedList.push, hm, hml]
  · intro T l v
    obtain ⟨m, hm, hml⟩ := Node.push_front_spec l.node v
    simp [LinkedList.push_front, hm, hml]
  · obtain ⟨l, hl, hlist, hw⟩ := LinkedList.fromList_spec ([1, 2] : List Nat)
    obtain ⟨m, hm, hml⟩ := Node.push_spec l.node 3
    have hv := LinkedList.to_vec_spec ⟨m⟩ (Node.push_wf hw hm)
    rw [hl]
    simp [LinkedList.push, hm, hv, hml, hlist]
  · obtain ⟨l, hl, hlist, hw⟩ := LinkedList.fromList_spec ([1, 2] : List Nat)
    obtain ⟨m, hm, hml⟩ := Node.push_front_spec l.node 3
    have hv := LinkedList.to_vec_spec ⟨m⟩ (Node.push_front_wf hw hm)
    rw [hl]
    simp [LinkedList.push_front, hm, hv, hml, hlist]

/-- C3: popBack — `pop` returns `none` on the empty list and otherwise
`some` of the last element of the logical sequence, the remaining list
representing the sequence without its last element; moreover a `Parent`
whose successor is the terminal `Tail` demotes to `Tail` around its own
value. -/
theorem claim_C3_pop_back (T : Type) (l : LinkedList T)
    (h : Reachable l.node) :
    (l.pop).map (fun p => (p.1, p.2.node.toList)) =
      some (l.node.toList.getLast?, l.node.toList.dropLast) ∧
    ∀ (v w : T),
      (Node.Parent v (Node.Tail w)).pop = some (some w, Node.Tail v) := by
  constructor
  · obtain ⟨r, m, hpop, -, hr, hl⟩ := Node.pop_spec h.wf
    simp [LinkedList.pop, hpop, hr, hl]
  · exact fun v w => Node.pop_parent_tail v w

/-- Witness for C3 at the two-element list built by pushing 1 then 2. -/
theorem claim_C3_pop_back_witness :
    Reachable ((⟨Node.Parent 1 (Node.Tail 2)⟩ : LinkedList Nat).node) ∧
    (((⟨Node.Parent 1 (Node.Tail 2)⟩ : LinkedList Nat).pop).map
        (fun p => (p.1, p.2.node.toList)) =
      some ((⟨Node.Parent 1 (Node.Tail 2)⟩ : LinkedList Nat).node.toList.getLast?,
        (⟨Node.Parent 1 (Node.Tail 2)⟩ : LinkedList Nat).node.toList.dropLast) ∧
    ∀ (v w : Nat),
      (Node.Parent v (Node.Tail w)).pop = some (some w, Node.Tail v)) :=
  ⟨⟨[Op.push 1, Op.push 2], 2, 0, rfl⟩,
    claim_C3_pop_back Nat ⟨Node.Parent 1 (Node.Tail 2)⟩
      ⟨[Op.push 1, Op.push 2], 2, 0, rfl⟩⟩

/-- C4: popFront — `pop_front` returns `none` on the empty list and
otherwise `some` of the first element, the remaining list representing the
sequence without its first element; on a `Parent` the successor chain
replaces the root in place. -/
theorem claim_C4_pop_front (T : Type) (l : LinkedList T) :
    (l.pop_front).map (fun p => (p.1, p.2.node.toList)) =
      some (l.node.toList.head?, l.node.toList.tail) ∧
    ∀ (v : T) (next : Node T),
      (Node.Parent v next).pop_front = some (some v, next) := by
  constructor
  · obtain ⟨r, m, hpop, hr, hl⟩ := Node.pop_front_spec l.node
    simp [LinkedList.pop_front, hpop, hr, hl]
  · intro v next
    rfl

/-- C5: variant-shape invariant — every reachable chain satisfies the
`wf` shape discipline (a `Parent`'s successor is never `Empty`), hence
size 0 ↔ `Empty`, size 1 ↔ `Tail`, size ≥ 2 ↔ `Parent` with non-`Empty`
successor; and every sequence of public operations preserves it. -/
theorem claim_C5_shape_invariant (T : Type) (n : Node T) (h : Reachable n) :
    n.wf = true ∧
    (n.size = 0 ↔ n = Node.Empty) ∧
    (n.size = 1 ↔ ∃ v, n = Node.Tail v) ∧
    (2 ≤ n.size ↔ ∃ v next, n = Node.Parent v next ∧ next ≠ Node.Empty) ∧
    (∀ (ops : List (Op T)) (f : Node T) (pushes pops : Nat),
      n.run ops = some (f, pushes, pops) → f.wf = true) := by
  have hw := h.wf
  obtain ⟨h0, h1, h2⟩ := Node.wf_shape hw
  exact ⟨hw, h0, h1, h2, fun ops f p s hrun => Node.run_wf hw hrun⟩

/-- Witness for C5 at the singleton chain reached by one push. -/
theorem claim_C5_shape_invariant_witness :
    Reachable (Node.Tail 7) ∧
    ((Node.Tail 7).wf = true ∧
    ((Node.Tail 7).size = 0 ↔ Node.Tail 7 = Node.Empty) ∧
    ((Node.Tail 7).size = 1 ↔ ∃ v, Node.Tail 7 = Node.Tail v) ∧
    (2 ≤ (Node.Tail 7).size ↔
      ∃ v next, Node.Tail 7 = Node.Parent v next ∧ next ≠ Node.Empty) ∧
    (∀ (ops : List (Op Nat)) (f : Node Nat) (pushes pops : Nat),
      (Node.Tail 7).run ops = some (f, pushes, pops) → f.wf = true)) :=
  ⟨⟨[Op.push 7], 1, 0, rfl⟩,
    claim_C5_shape_invariant Nat (Node.Tail 7) ⟨[Op.push 7], 1, 0, rfl⟩⟩

/-- C6: size accounting — after any sequence of push/push_front/pop/
pop_front calls starting from the empty chain, no call panics, `size`
equals the number of pushes minus the number of successful pops, and that
difference is never negative. -/
theorem claim_C6_size_accounting (T : Type) (ops : List (Op T)) :
    ∃ f pushes pops, Node.run Node.Empty ops = some (f, pushes, pops) ∧
      pops ≤ pushes ∧ f.size = pushes - pops := by
  obtain ⟨f, p, s, hrun, -, he, hle⟩ := Node.run_spec ops Node.Empty rfl
  have hz : (Node.Empty : Node T).size = 0 := rfl
  rw [hz] at he hle
  exact ⟨f, p, s, hrun, by omega, by omega⟩

/-- C7: empty-pop idempotence — popping the empty list from either end
returns the absence signal and leaves the list empty, and repeating the
call any number of times always gives the same result (zero successful
pops). -/
theorem claim_C7_empty_pop (T : Type) (k : Nat) :
    (LinkedList.new : LinkedList T).pop = some (none, LinkedList.new) ∧
    (LinkedList.new : LinkedList T).pop_front = some (none, LinkedList.new) ∧
    Node.run (Node.Empty : Node T) (List.replicate k Op.pop) =
      some (Node.Empty, 0, 0) ∧
    Node.run (Node.Empty : Node T) (List.replicate k Op.pop_front) =
      some (Node.Empty, 0, 0) := by
  refine ⟨?_, rfl, ?_, ?_⟩
  · simp [LinkedList.pop, LinkedList.new, Node.pop_empty]
  · induction k with
    | zero => rfl
    | succ k ih =>
        simp [List.replicate_succ, Node.run, Node.pop_empty, ih]
  · induction k with
    | zero => rfl
    | succ k ih =>
        simp [List.replicate_succ, Node.run, Node.pop_front, ih]

/-- C8: internal-panic unreachability — on every reachable chain, none of
the public operations hits a modelled panic (`Node::value` on `Empty`, or
the `unwrap`s inside `Node::to_tail`): each returns `some` result. -/
theorem claim_C8_no_panic (T : Type) (n : Node T) (v : T)
    (h : Reachable n) :
    (n.push v).isSome ∧ (n.push_front v).isSome ∧
    (n.pop).isSome ∧ (n.pop_front).isSome := by
  obtain ⟨m1, h1, -⟩ := Node.push_spec n v
  obtain ⟨m2, h2, -⟩ := Node.push_front_spec n v
  obtain ⟨r3, m3, h3⟩ := Node.pop_total n
  obtain ⟨r4, m4, h4, -, -⟩ := Node.pop_front_spec n
  simp [h1, h2, h3, h4]

/-- Witness for C8 at the empty chain. -/
theorem claim_C8_no_panic_witness :
    Reachable (Node.Empty : Node Nat) ∧
    (((Node.Empty : Node Nat).push 0).isSome ∧
    ((Node.Empty : Node Nat).push_front 0).isSome ∧
    ((Node.Empty : Node Nat).pop).isSome ∧
    ((Node.Empty : Node Nat).pop_front).isSome) :=
  ⟨⟨[], 0, 0, rfl⟩, claim_C8_no_panic Nat Node.Empty 0 ⟨[], 0, 0, rfl⟩⟩

/-- C9: toSequence refinement — on every reachable list, `to_vec`
(repeated back-pops followed by a reverse) produces exactly what the
spec's front-removal export `toSequence` produces, namely the logical
front-to-back sequence. -/
theorem claim_C9_to_vec_refines (T : Type) (l : LinkedList T)
    (h : Reachable l.node) :
    l.to_vec = l.toSequence ∧ l.to_vec = some l.node.toList := by
  rw [LinkedList.to_vec_spec l h.wf, LinkedList.toSequence_spec l]
  exact ⟨rfl, rfl⟩

/-- Witness for C9 at the singleton list reached by one push. -/
theorem claim_C9_to_vec_refines_witness :
    Reachable ((⟨Node.Tail 5⟩ : LinkedList Nat).node) ∧
    ((⟨Node.Tail 5⟩ : LinkedList Nat).to_vec =
        (⟨Node.Tail 5⟩ : LinkedList Nat).toSequence ∧
      (⟨Node.Tail 5⟩ : LinkedList Nat).to_vec =
        some (⟨Node.Tail 5⟩ : LinkedList Nat).node.toList) :=
  ⟨⟨[Op.push 5], 1, 0, rfl⟩,
    claim_C9_to_vec_refines Nat ⟨Node.Tail 5⟩ ⟨[Op.push 5], 1, 0, rfl⟩⟩

/-- C10: size/export agreement — on every reachable list, `size` equals
the length of the vector `to_vec` exports. -/
theorem claim_C10_size_export (T : Type) (l : LinkedList T)
    (h : Reachable l.node) :
    (l.to_vec).map List.length = some l.size := by
  rw [LinkedList.to_vec_spec l h.wf]
  simp [LinkedList.size]

/-- Witness for C10 at the two-element list built by pushing 3 then 4. -/
theorem claim_C10_size_export_witness :
    Reachable ((⟨Node.Parent 3 (Node.Tail 4)⟩ : LinkedList Nat).node) ∧
    ((⟨Node.Parent 3 (Node.Tail 4)⟩ : LinkedList Nat).to_vec).map List.length =
      some (⟨Node.Parent 3 (Node.Tail 4)⟩ : LinkedList Nat).size :=
  ⟨⟨[Op.push 3, Op.push 4], 2, 0, rfl⟩,
    claim_C10_size_export Nat ⟨Node.Parent 3 (Node.Tail 4)⟩
      ⟨[Op.push 3, Op.push 4], 2, 0, rfl⟩⟩

end LinkedRs
